import Mathlib

/-!
Shallow embedding of the orion-voice repository (src/orion_voice), covering
the hotkey manager (core/hotkeys.py), the audio recorder (stt/recorder.py),
the STT listen loop and energy VAD (stt/engine.py), and the TTS manager and
audio player (tts/engine.py), together with theorems settling the spec
claims about them.
-/

namespace OrionVoice

/-! ### Key model (pynput keys as used by core/hotkeys.py)

`PKey` models `pynput.keyboard.Key | pynput.keyboard.KeyCode` restricted to
the members the repository touches.  In pynput, `Key.cmd_l` is an enum alias
of `Key.cmd` on every backend, so the model has a single `cmd` constructor
for both, while `Key.cmd_r` is a distinct member.  A `KeyCode` carrying a
character is modelled by `PKey.char`. -/

inductive PKey where
  | ctrl_l
  | ctrl_r
  | alt_l
  | alt_r
  | shift
  | shift_l
  | shift_r
  | cmd
  | cmd_r
  | space
  | tab
  | enter
  | esc
  | char (c : Char)
deriving DecidableEq, Repr

/-- `HotkeyManager._normalize_key` (hotkeys.py lines 66-76): collapse the
left/right variants of ctrl, alt and shift; lowercase character keys; leave
every other key unchanged.  The source has no branch for cmd. -/
def normalizeKey : PKey → PKey
  | PKey.ctrl_l => PKey.ctrl_l
  | PKey.ctrl_r => PKey.ctrl_l
  | PKey.alt_l => PKey.alt_l
  | PKey.alt_r => PKey.alt_l
  | PKey.shift => PKey.shift
  | PKey.shift_l => PKey.shift
  | PKey.shift_r => PKey.shift
  | PKey.char c => PKey.char c.toLower
  | k => k

/-! ### Chord parsing (`_parse_keys`, hotkeys.py lines 24-44)

Python string operations are modelled structurally over the character list
of the string, so that they compute by kernel reduction. -/

instance exceptDecEq {ε α : Type} [DecidableEq ε] [DecidableEq α] :
    DecidableEq (Except ε α)
  | Except.error e, Except.error f =>
    if h : e = f then isTrue (by subst h; rfl)
    else isFalse (fun c => h (by injection c))
  | Except.error _, Except.ok _ => isFalse (fun c => Except.noConfusion c)
  | Except.ok _, Except.error _ => isFalse (fun c => Except.noConfusion c)
  | Except.ok x, Except.ok y =>
    if h : x = y then isTrue (by subst h; rfl)
    else isFalse (fun c => h (by injection c))

/-- Python `combo.split(sep)` for a single-character separator: empty parts
are kept, and splitting the empty string yields one empty part. -/
def splitOnChar (sep : Char) : List Char → List (List Char)
  | [] => [[]]
  | c :: cs =>
    match splitOnChar sep cs with
    | [] => if c = sep then [[], [c]] else [[c]]
    | h :: t => if c = sep then [] :: h :: t else (c :: h) :: t

/-- Python `str.strip()`: drop whitespace from both ends. -/
def stripChars (l : List Char) : List Char :=
  ((l.dropWhile Char.isWhitespace).reverse.dropWhile Char.isWhitespace).reverse

/-- Python `str.lower()`. -/
def lowerChars (l : List Char) : List Char :=
  l.map Char.toLower

/-- The name-to-key mapping dict of `_parse_keys`. -/
def keyMapping : List Char → Option PKey
  | ['c', 't', 'r', 'l'] => some PKey.ctrl_l
  | ['s', 'h', 'i', 'f', 't'] => some PKey.shift
  | ['a', 'l', 't'] => some PKey.alt_l
  | ['c', 'm', 'd'] => some PKey.cmd
  | ['s', 'p', 'a', 'c', 'e'] => some PKey.space
  | ['t', 'a', 'b'] => some PKey.tab
  | ['e', 'n', 't', 'e', 'r'] => some PKey.enter
  | ['e', 's', 'c'] => some PKey.esc
  | _ => none

/-- One part of a chord: mapped name, else a single character, else the
`ValueError("Unknown key: ...")` of `_parse_keys`. -/
def parsePart (part : List Char) : Except String PKey :=
  match keyMapping part with
  | some k => Except.ok k
  | none =>
    match part with
    | [c] => Except.ok (PKey.char c)
    | _ => Except.error ("Unknown key: " ++ String.mk part)

/-- `_parse_keys`: split the combo on `+`, strip and lowercase each part,
resolve each part, and return the set of keys; the first unknown part raises. -/
def parseKeys (combo : String) : Except String (Finset PKey) := do
  let parts := (splitOnChar '+' combo.data).map
    (fun p => lowerChars (stripChars p))
  let ks ← parts.mapM parsePart
  return ks.toFinset

/-! ### Bindings and manager state -/

inductive HotkeyMode where
  | hold
  | toggle
deriving DecidableEq, Repr

/-- `HotkeyBinding` (hotkeys.py lines 16-21).  The callbacks are abstracted
into emitted `CbEvent`s; `hasDeactivate` records whether `on_deactivate` is
`None` (the code guards each `on_deactivate()` call with a truthiness test). -/
structure HotkeyBinding where
  keys : String
  mode : HotkeyMode
  hasDeactivate : Bool
deriving DecidableEq, Repr

/-- A callback invocation observed during one event-handler run. -/
inductive CbEvent where
  | activate (name : String)
  | deactivate (name : String)
deriving DecidableEq, Repr

/-- Python `set.add`: append only when absent (on a duplicate-free list). -/
def setAdd (l : List String) (x : String) : List String :=
  if x ∈ l then l else l ++ [x]

/-- Python `set.discard`: remove the element when present. -/
def setDiscard (l : List String) (x : String) : List String :=
  l.filter (fun y => y ≠ x)

/-- `HotkeyManager` state (hotkeys.py lines 48-54): the bindings dict (an
insertion-ordered association list, as a Python dict), the pressed-key set,
the two active-name sets (Python sets, modelled as duplicate-free lists with
a definite iteration order), and whether a listener is running. -/
structure ManagerState where
  bindings : List (String × HotkeyBinding)
  pressed : Finset PKey
  activeHolds : List String
  activeToggles : List String
  listening : Bool
deriving DecidableEq

def initialManager : ManagerState :=
  { bindings := [], pressed := ∅, activeHolds := [], activeToggles := [],
    listening := false }

/-- Python dict assignment `self._bindings[name] = binding`: replace in place
when the key exists, otherwise append. -/
def updateAssoc (l : List (String × HotkeyBinding)) (name : String)
    (b : HotkeyBinding) : List (String × HotkeyBinding) :=
  if l.any (fun p => p.1 = name) then
    l.map (fun p => if p.1 = name then (name, b) else p)
  else
    l ++ [(name, b)]

/-- `HotkeyManager.register` (hotkeys.py lines 56-58): store the binding in
the dict.  No parsing or validation happens here. -/
def register (s : ManagerState) (name : String) (b : HotkeyBinding) :
    ManagerState :=
  { s with bindings := updateAssoc s.bindings name b }

/-- Python dict lookup `self._bindings.get(name)`. -/
def lookupBinding (l : List (String × HotkeyBinding)) (name : String) :
    Option HotkeyBinding :=
  (l.find? (fun p => p.1 = name)).map (fun p => p.2)

/-- Result of one iteration pass of an event handler: the updated active
sets, the callback events emitted in order, and the exception carried out of
the loop, if any (mutations made before the exception persist). -/
structure LoopResult where
  holds : List String
  toggles : List String
  events : List CbEvent
  error : Option String
deriving DecidableEq

/-- The `for name, binding in self._bindings.items()` loop of `_on_press`
(hotkeys.py lines 83-100), with `pressed` already containing the new key.
Each binding's chord is parsed afresh; a parse failure propagates out of the
loop, keeping the mutations already made. -/
def pressLoop (pressed : Finset PKey) :
    List (String × HotkeyBinding) → List String → List String → LoopResult
  | [], holds, toggles =>
    { holds := holds, toggles := toggles, events := [], error := none }
  | (name, b) :: rest, holds, toggles =>
    match parseKeys b.keys with
    | Except.error e =>
      { holds := holds, toggles := toggles, events := [], error := some e }
    | Except.ok required =>
      if required ⊆ pressed then
        match b.mode with
        | HotkeyMode.hold =>
          if name ∈ holds then
            pressLoop pressed rest holds toggles
          else
            let r := pressLoop pressed rest (setAdd holds name) toggles
            { r with events := CbEvent.activate name :: r.events }
        | HotkeyMode.toggle =>
          if name ∈ toggles then
            let r := pressLoop pressed rest holds (setDiscard toggles name)
            let evs :=
              if b.hasDeactivate then CbEvent.deactivate name :: r.events
              else r.events
            { r with events := evs }
          else
            let r := pressLoop pressed rest holds (setAdd toggles name)
            { r with events := CbEvent.activate name :: r.events }
      else
        pressLoop pressed rest holds toggles

/-- Result of a full event-handler run. -/
structure StepResult where
  state : ManagerState
  events : List CbEvent
  error : Option String
deriving DecidableEq

/-- `HotkeyManager._on_press` (hotkeys.py lines 78-100): normalize the key,
add it to the pressed set, then walk all bindings. -/
def onPress (s : ManagerState) (k : PKey) : StepResult :=
  let nk := normalizeKey k
  let pressed := insert nk s.pressed
  let r := pressLoop pressed s.bindings s.activeHolds s.activeToggles
  { state :=
      { s with
        pressed := pressed
        activeHolds := r.holds
        activeToggles := r.toggles }
    events := r.events
    error := r.error }

/-- The `for name in list(self._active_holds)` loop of `_on_release`
(hotkeys.py lines 106-116), iterating over a snapshot of the active-holds
set while mutating it. -/
def releaseLoop (pressed : Finset PKey)
    (bindings : List (String × HotkeyBinding)) :
    List String → List String → LoopResult
  | [], holds =>
    { holds := holds, toggles := [], events := [], error := none }
  | name :: rest, holds =>
    match lookupBinding bindings name with
    | none => releaseLoop pressed bindings rest (setDiscard holds name)
    | some b =>
      match parseKeys b.keys with
      | Except.error e =>
        { holds := holds, toggles := [], events := [], error := some e }
      | Except.ok required =>
        if required ⊆ pressed then
          releaseLoop pressed bindings rest holds
        else
          let r := releaseLoop pressed bindings rest (setDiscard holds name)
          let evs :=
            if b.hasDeactivate then CbEvent.deactivate name :: r.events
            else r.events
          { r with events := evs }

/-- `HotkeyManager._on_release` (hotkeys.py lines 102-116): normalize the
key, discard it from the pressed set, then walk a snapshot of the active
holds.  The toggle set is never touched. -/
def onRelease (s : ManagerState) (k : PKey) : StepResult :=
  let nk := normalizeKey k
  let pressed := s.pressed.erase nk
  let r := releaseLoop pressed s.bindings s.activeHolds s.activeHolds
  { state := { s with pressed := pressed, activeHolds := r.holds }
    events := r.events
    error := r.error }

/-- A key event delivered by the listener. -/
inductive KeyEvent where
  | press (k : PKey)
  | release (k : PKey)
deriving DecidableEq, Repr

def stepEvent (s : ManagerState) (e : KeyEvent) : StepResult :=
  match e with
  | KeyEvent.press k => onPress s k
  | KeyEvent.release k => onRelease s k

/-- Process a list of key events, keeping only the state. -/
def runEvents (s : ManagerState) : List KeyEvent → ManagerState
  | [] => s
  | e :: es => runEvents (stepEvent s e).state es

/-- `HotkeyManager.stop` (hotkeys.py lines 128-133): when a listener is
running, stop it and clear the pressed set and the active holds.  The
active toggles are not cleared, and no callback is invoked (the returned
event list is always empty). -/
def managerStop (s : ManagerState) : ManagerState × List CbEvent :=
  if s.listening then
    ({ s with listening := false, pressed := ∅, activeHolds := [] }, [])
  else
    (s, [])

/-! ### Audio recorder (stt/recorder.py) -/

/-- `AudioRecorder` mutable state: the `_recording` flag, whether a stream
object is held open, and the accumulated chunks (`_chunks`).  Samples are
rationals standing for float32 values. -/
structure RecorderState where
  recording : Bool
  streamOpen : Bool
  chunks : List (List ℚ)
deriving DecidableEq

def initialRecorder : RecorderState :=
  { recording := false, streamOpen := false, chunks := [] }

/-- `AudioRecorder.start` (recorder.py lines 40-63).  `deviceOk` is whether
opening and starting the input stream succeeds; on a `PortAudioError` the
code resets `_recording` to `False` and then raises `RuntimeError`, returned
here as the second component alongside the post-state. -/
def recorderStart (s : RecorderState) (deviceOk : Bool) :
    RecorderState × Option String :=
  if s.recording then
    (s, none)
  else
    let s1 := { s with chunks := [], recording := true }
    if deviceOk then
      ({ s1 with streamOpen := true }, none)
    else
      ({ s1 with recording := false },
       some "No audio input device available. Check your microphone.")

/-- `AudioRecorder.stop` (recorder.py lines 65-82): when not recording,
return an empty array at once; otherwise close the stream and concatenate
the chunks. -/
def recorderStop (s : RecorderState) : RecorderState × List ℚ :=
  if s.recording = false then
    (s, [])
  else
    let s1 := { s with recording := false, streamOpen := false }
    if s1.chunks = [] then
      (s1, [])
    else
      ({ s1 with chunks := [] }, s1.chunks.flatten)

/-! ### Energy VAD and the hands-free listen loop (stt/engine.py) -/

def SAMPLE_RATE : ℕ := 16000

def VAD_FRAME_MS : ℕ := 30

def VAD_FRAME_SAMPLES : ℕ := SAMPLE_RATE * VAD_FRAME_MS / 1000

def ENERGY_THRESHOLD_DEFAULT : ℚ := 1 / 100

def SILENCE_LIMIT_S : ℚ := 3 / 2

/-- Mean of the squared samples, `np.mean(audio ** 2)` (division by the
length; only used under a nonempty guard in the source). -/
def meanSquare (audio : List ℚ) : ℚ :=
  (audio.map (fun x => x * x)).sum / audio.length

/-- `sqrt m > t` for `m ≥ 0`, expressed without real square roots: true when
`t` is negative (a square root is nonnegative), else `m > t ^ 2`. -/
def sqrtGt (m t : ℚ) : Bool :=
  if t < 0 then true else decide (m > t * t)

/-- `EnergyVAD.is_speech` (engine.py lines 36-40): an empty frame is not
speech; otherwise compare the RMS of the frame against the threshold. -/
def isSpeech (threshold : ℚ) (audio : List ℚ) : Bool :=
  if audio.length = 0 then false
  else sqrtGt (meanSquare audio) threshold

/-- `int(self.silence_limit * sample_rate / chunk_samples)` (engine.py line
135): the number of consecutive silent frames that ends capture.  Python's
`int()` truncates; the operands are nonnegative, so it is a floor. -/
def silenceChunks (silenceLimit : ℚ) (sampleRate : ℕ) : ℕ :=
  (Int.floor (silenceLimit * sampleRate / (VAD_FRAME_SAMPLES : ℚ))).toNat

/-- Loop state of `STTEngine.listen` (engine.py lines 137-162): accumulated
frames, the consecutive-silence counter, whether speech was ever detected,
and whether the loop has exited via `break`. -/
structure ListenState where
  chunks : List (List ℚ)
  silentCount : ℕ
  speechStarted : Bool
  stopped : Bool
deriving DecidableEq

def listenInit : ListenState :=
  { chunks := [], silentCount := 0, speechStarted := false, stopped := false }

/-- One iteration of the `while self._listening` loop of `STTEngine.listen`
on the next frame (a stopped loop consumes nothing further).  A speech frame
marks speech as started, resets the silence counter and is accumulated; a
silent frame after speech started is accumulated and counted, breaking once
the counter reaches the limit; a silent frame before any speech is dropped
and nothing else happens. -/
def listenStep (threshold : ℚ) (limit : ℕ) (st : ListenState)
    (frame : List ℚ) : ListenState :=
  if st.stopped then st
  else if isSpeech threshold frame then
    { st with
      speechStarted := true
      silentCount := 0
      chunks := st.chunks ++ [frame] }
  else if st.speechStarted then
    let sc := st.silentCount + 1
    { st with
      silentCount := sc
      chunks := st.chunks ++ [frame]
      stopped := decide (limit ≤ sc) }
  else st

/-- Run the listen loop over the first `n` frames of the input stream. -/
def listenRun (threshold : ℚ) (limit : ℕ) (stream : ℕ → List ℚ) :
    ℕ → ListenState
  | 0 => listenInit
  | n + 1 => listenStep threshold limit (listenRun threshold limit stream n)
      (stream n)

/-- The loop exits by its own `break` after finitely many frames (without an
external `stop_listening()` call setting `_listening` to `False`). -/
def listenTerminates (threshold : ℚ) (limit : ℕ) (stream : ℕ → List ℚ) :
    Prop :=
  ∃ n, (listenRun threshold limit stream n).stopped = true

/-! ### Playback controller (`_AudioPlayer`, tts/engine.py) -/

inductive PlaybackState where
  | idle
  | playing
  | paused
  | stopped
deriving DecidableEq, Repr

/-- `_AudioPlayer` fields observable from `stop()`: the playback state, the
two events, and whether a live playback thread exists (`_thread` is set and
`is_alive()`). -/
structure PlayerState where
  state : PlaybackState
  stopEvent : Bool
  pauseEvent : Bool
  threadAlive : Bool
deriving DecidableEq, Repr

def initialPlayer : PlayerState :=
  { state := PlaybackState.idle, stopEvent := false, pauseEvent := true,
    threadAlive := false }

/-- `_AudioPlayer.stop` (tts/engine.py lines 299-306): set the stop and
pause events, mark the state STOPPED, join the playback thread when one is
alive (after which it is gone), then set the state to IDLE.  No branch of
this method can raise. -/
def playerStop (p : PlayerState) : PlayerState :=
  let p1 := { p with
    stopEvent := true
    pauseEvent := true
    state := PlaybackState.stopped }
  let p2 := { p1 with threadAlive := false }
  { p2 with state := PlaybackState.idle }

/-! ### TTS backend fallback (`TTSManager`, tts/engine.py) -/

/-- One TTS backend: the outcome of `synthesize(text)` for each request (PCM
bytes or an exception message), and the backend's fixed native
`sample_rate` property (22050 for Piper, 24000 for Edge). -/
structure TTSBackend where
  synth : String → Except String (List ℤ)
  sampleRate : ℕ

/-- `TTSManager._engine_order` (tts/engine.py lines 375-378): Edge first
when it is the preferred backend, otherwise Piper first. -/
def engineOrder (preferred : Option String) (piper edge : TTSBackend) :
    List TTSBackend :=
  if preferred = some "edge" then [edge, piper] else [piper, edge]

/-- The fallback loop of `TTSManager._synthesize` (tts/engine.py lines
363-373): try each backend in order, remembering the last exception; return
the first success paired with that backend's sample rate, or raise
`RuntimeError("All TTS engines failed. ...")` once every backend threw. -/
def synthLoop (text : String) :
    List TTSBackend → Option String → Except String (List ℤ × ℕ)
  | [], lastErr =>
    Except.error ("All TTS engines failed. Last error: "
      ++ (match lastErr with | some e => e | none => "None"))
  | e :: rest, _lastErr =>
    match e.synth text with
    | Except.ok pcm => Except.ok (pcm, e.sampleRate)
    | Except.error exc => synthLoop text rest (some exc)

/-- `TTSManager._synthesize` entry point. -/
def ttsSynthesize (preferred : Option String) (piper edge : TTSBackend)
    (text : String) : Except String (List ℤ × ℕ) :=
  synthLoop text (engineOrder preferred piper edge) none

/-- Whether an `Except` result is a success. -/
def exceptOk {ε α : Type} : Except ε α → Bool
  | Except.ok _ => true
  | Except.error _ => false

/-! ## Lemmas about the modelled Python set operations -/

lemma mem_setAdd (l : List String) (x y : String) :
    x ∈ setAdd l y ↔ (x ∈ l ∨ x = y) := by
  unfold setAdd
  split
  · rename_i h
    constructor
    · exact fun hx => Or.inl hx
    · rintro (hx | rfl)
      · exact hx
      · exact h
  · simp [List.mem_append]

lemma mem_setDiscard (l : List String) (x y : String) :
    x ∈ setDiscard l y ↔ (x ∈ l ∧ x ≠ y) := by
  simp [setDiscard]

lemma setAdd_nodup (l : List String) (x : String) (h : l.Nodup) :
    (setAdd l x).Nodup := by
  unfold setAdd
  split
  · exact h
  · rename_i hx
    simp [List.nodup_append, h, hx]

lemma setDiscard_nodup (l : List String) (x : String) (h : l.Nodup) :
    (setDiscard l x).Nodup :=
  h.filter _

/-! ## Lemmas about the `_on_press` binding loop -/

/-- A binding name that does not occur in the processed binding list keeps
its membership in either active set unchanged. -/
lemma pressLoop_frame (pressed : Finset PKey) :
    ∀ (l : List (String × HotkeyBinding)) (holds toggles : List String)
      (name : String), name ∉ l.map Prod.fst →
      ((name ∈ (pressLoop pressed l holds toggles).holds ↔ name ∈ holds) ∧
       (name ∈ (pressLoop pressed l holds toggles).toggles ↔ name ∈ toggles)) := by
  intro l
  induction l with
  | nil => intro holds toggles name _; exact ⟨Iff.rfl, Iff.rfl⟩
  | cons q rest ih =>
    intro holds toggles name hname
    obtain ⟨qn, qb⟩ := q
    have hqn : qn ≠ name := by
      intro h; exact hname (by simp [h])
    have hrest : name ∉ rest.map Prod.fst := by
      intro h; exact hname (by simp [h])
    cases hq : parseKeys qb.keys with
    | error e => simp [pressLoop, hq]
    | ok req =>
      by_cases hsub : req ⊆ pressed
      · cases hmode : qb.mode with
        | hold =>
          by_cases hmem : qn ∈ holds
          · simp only [pressLoop, hq, if_pos hsub, hmode, if_pos hmem]
            exact ih holds toggles name hrest
          · simp only [pressLoop, hq, if_pos hsub, hmode, if_neg hmem]
            refine ⟨?_, (ih _ toggles name hrest).2⟩
            rw [(ih _ toggles name hrest).1, mem_setAdd]
            simp [Ne.symm hqn]
        | toggle =>
          by_cases hmem : qn ∈ toggles
          · simp only [pressLoop, hq, if_pos hsub, hmode, if_pos hmem]
            refine ⟨(ih holds _ name hrest).1, ?_⟩
            rw [(ih holds _ name hrest).2, mem_setDiscard]
            simp [Ne.symm hqn]
          · simp only [pressLoop, hq, if_pos hsub, hmode, if_neg hmem]
            refine ⟨(ih holds _ name hrest).1, ?_⟩
            rw [(ih holds _ name hrest).2, mem_setAdd]
            simp [Ne.symm hqn]
      · simp only [pressLoop, hq, if_neg hsub]
        exact ih holds toggles name hrest

/-- Membership of a TOGGLE binding's name after the press loop: it flips
exactly when its chord is a subset of the pressed set, independently of any
previous level of the chord. -/
lemma pressLoop_toggles_mem (pressed : Finset PKey) :
    ∀ (l : List (String × HotkeyBinding)) (holds toggles : List String)
      (name : String) (b : HotkeyBinding) (req : Finset PKey),
      (name, b) ∈ l → (l.map Prod.fst).Nodup →
      b.mode = HotkeyMode.toggle → parseKeys b.keys = Except.ok req →
      (∀ p ∈ l, exceptOk (parseKeys p.2.keys) = true) →
      (name ∈ (pressLoop pressed l holds toggles).toggles ↔
        (if req ⊆ pressed then name ∉ toggles else name ∈ toggles)) := by
  intro l
  induction l with
  | nil => intro _ _ _ _ _ h; cases h
  | cons q rest ih =>
    intro holds toggles name b req hmem hnodup hmode hreq hok
    obtain ⟨qn, qb⟩ := q
    rcases List.mem_cons.mp hmem with heq | hmem'
    · injection heq with h1 h2
      subst h1; subst h2
      have hrest : name ∉ rest.map Prod.fst :=
        (List.nodup_cons.mp
          (show (name :: rest.map Prod.fst).Nodup from hnodup)).1
      by_cases hsub : req ⊆ pressed
      · by_cases hmemT : name ∈ toggles
        · simp only [pressLoop, hreq, if_pos hsub, hmode, if_pos hmemT]
          rw [(pressLoop_frame pressed rest holds _ name hrest).2,
            mem_setDiscard]
          simp [hsub, hmemT]
        · simp only [pressLoop, hreq, if_pos hsub, hmode, if_neg hmemT]
          rw [(pressLoop_frame pressed rest holds _ name hrest).2,
            mem_setAdd]
          simp [hsub, hmemT]
      · simp only [pressLoop, hreq, if_neg hsub]
        rw [(pressLoop_frame pressed rest holds toggles name hrest).2]
    · have hpair := List.nodup_cons.mp
        (show (qn :: rest.map Prod.fst).Nodup from hnodup)
      have hqn : qn ≠ name := by
        intro h
        subst h
        exact hpair.1 (List.mem_map.mpr ⟨(qn, b), hmem', rfl⟩)
      have hnodup' : (rest.map Prod.fst).Nodup := hpair.2
      have hok' : ∀ p ∈ rest, exceptOk (parseKeys p.2.keys) = true :=
        fun p hp => hok p (List.mem_cons_of_mem _ hp)
      have hqok := hok (qn, qb) (List.mem_cons_self _ _)
      cases hq : parseKeys qb.keys with
      | error e => rw [hq] at hqok; simp [exceptOk] at hqok
      | ok req' =>
        by_cases hsub : req' ⊆ pressed
        · cases hmode' : qb.mode with
          | hold =>
            by_cases hmemH : qn ∈ holds
            · simp only [pressLoop, hq, if_pos hsub, hmode', if_pos hmemH]
              exact ih holds toggles name b req hmem' hnodup' hmode hreq hok'
            · simp only [pressLoop, hq, if_pos hsub, hmode', if_neg hmemH]
              exact ih _ toggles name b req hmem' hnodup' hmode hreq hok'
          | toggle =>
            by_cases hmemT : qn ∈ toggles
            · simp only [pressLoop, hq, if_pos hsub, hmode', if_pos hmemT]
              rw [ih holds _ name b req hmem' hnodup' hmode hreq hok']
              rw [mem_setDiscard]
              simp [Ne.symm hqn]
            · simp only [pressLoop, hq, if_pos hsub, hmode', if_neg hmemT]
              rw [ih holds _ name b req hmem' hnodup' hmode hreq hok']
              rw [mem_setAdd]
              simp [Ne.symm hqn]
        · simp only [pressLoop, hq, if_neg hsub]
          exact ih holds toggles name b req hmem' hnodup' hmode hreq hok'

/-- Membership of a HOLD binding's name after the press loop: the name is
active afterwards exactly when it was active before or its chord is now
fully pressed. -/
lemma pressLoop_holds_mem (pressed : Finset PKey) :
    ∀ (l : List (String × HotkeyBinding)) (holds toggles : List String)
      (name : String) (b : HotkeyBinding) (req : Finset PKey),
      (name, b) ∈ l → (l.map Prod.fst).Nodup →
      b.mode = HotkeyMode.hold → parseKeys b.keys = Except.ok req →
      (∀ p ∈ l, exceptOk (parseKeys p.2.keys) = true) →
      (name ∈ (pressLoop pressed l holds toggles).holds ↔
        (name ∈ holds ∨ req ⊆ pressed)) := by
  intro l
  induction l with
  | nil => intro _ _ _ _ _ h; cases h
  | cons q rest ih =>
    intro holds toggles name b req hmem hnodup hmode hreq hok
    obtain ⟨qn, qb⟩ := q
    rcases List.mem_cons.mp hmem with heq | hmem'
    · injection heq with h1 h2
      subst h1; subst h2
      have hrest : name ∉ rest.map Prod.fst :=
        (List.nodup_cons.mp
          (show (name :: rest.map Prod.fst).Nodup from hnodup)).1
      by_cases hsub : req ⊆ pressed
      · by_cases hmemH : name ∈ holds
        · simp only [pressLoop, hreq, if_pos hsub, hmode, if_pos hmemH]
          rw [(pressLoop_frame pressed rest holds toggles name hrest).1]
          simp [hmemH]
        · simp only [pressLoop, hreq, if_pos hsub, hmode, if_neg hmemH]
          rw [(pressLoop_frame pressed rest _ toggles name hrest).1,
            mem_setAdd]
          simp [hsub]
      · simp only [pressLoop, hreq, if_neg hsub]
        rw [(pressLoop_frame pressed rest holds toggles name hrest).1]
        simp [hsub]
    · have hpair := List.nodup_cons.mp
        (show (qn :: rest.map Prod.fst).Nodup from hnodup)
      have hqn : qn ≠ name := by
        intro h
        subst h
        exact hpair.1 (List.mem_map.mpr ⟨(qn, b), hmem', rfl⟩)
      have hnodup' : (rest.map Prod.fst).Nodup := hpair.2
      have hok' : ∀ p ∈ rest, exceptOk (parseKeys p.2.keys) = true :=
        fun p hp => hok p (List.mem_cons_of_mem _ hp)
      have hqok := hok (qn, qb) (List.mem_cons_self _ _)
      cases hq : parseKeys qb.keys with
      | error e => rw [hq] at hqok; simp [exceptOk] at hqok
      | ok req' =>
        by_cases hsub : req' ⊆ pressed
        · cases hmode' : qb.mode with
          | hold =>
            by_cases hmemH : qn ∈ holds
            · simp only [pressLoop, hq, if_pos hsub, hmode', if_pos hmemH]
              exact ih holds toggles name b req hmem' hnodup' hmode hreq hok'
            · simp only [pressLoop, hq, if_pos hsub, hmode', if_neg hmemH]
              rw [ih _ toggles name b req hmem' hnodup' hmode hreq hok',
                mem_setAdd]
              simp [Ne.symm hqn]
          | toggle =>
            by_cases hmemT : qn ∈ toggles
            · simp only [pressLoop, hq, if_pos hsub, hmode', if_pos hmemT]
              exact ih holds _ name b req hmem' hnodup' hmode hreq hok'
            · simp only [pressLoop, hq, if_pos hsub, hmode', if_neg hmemT]
              exact ih holds _ name b req hmem' hnodup' hmode hreq hok'
        · simp only [pressLoop, hq, if_neg hsub]
          exact ih holds toggles name b req hmem' hnodup' hmode hreq hok'

/-- A name that does not occur in the processed binding list receives no
callback at all from the press loop. -/
lemma pressLoop_counts_frame (pressed : Finset PKey) :
    ∀ (l : List (String × HotkeyBinding)) (holds toggles : List String)
      (name : String), name ∉ l.map Prod.fst →
      ((pressLoop pressed l holds toggles).events.count
          (CbEvent.activate name) = 0 ∧
       (pressLoop pressed l holds toggles).events.count
          (CbEvent.deactivate name) = 0) := by
  intro l
  induction l with
  | nil => intro holds toggles name _; exact ⟨rfl, rfl⟩
  | cons q rest ih =>
    intro holds toggles name hname
    obtain ⟨qn, qb⟩ := q
    have hqn : name ≠ qn := by
      intro h; exact hname (by simp [h])
    have hrest : name ∉ rest.map Prod.fst := by
      intro h; exact hname (by simp [h])
    cases hq : parseKeys qb.keys with
    | error e => simp [pressLoop, hq]
    | ok req =>
      by_cases hsub : req ⊆ pressed
      · cases hmode : qb.mode with
        | hold =>
          by_cases hmemH : qn ∈ holds
          · simp only [pressLoop, hq, if_pos hsub, hmode, if_pos hmemH]
            exact ih holds toggles name hrest
          · simp only [pressLoop, hq, if_pos hsub, hmode, if_neg hmemH]
            obtain ⟨c1, c2⟩ := ih (setAdd holds qn) toggles name hrest
            constructor
            · simp [List.count_cons, c1, hqn, Ne.symm hqn]
            · simp [List.count_cons, c2]
        | toggle =>
          by_cases hmemT : qn ∈ toggles
          · simp only [pressLoop, hq, if_pos hsub, hmode, if_pos hmemT]
            obtain ⟨c1, c2⟩ := ih holds (setDiscard toggles qn) name hrest
            cases hd : qb.hasDeactivate
            · rw [if_neg Bool.false_ne_true]
              exact ⟨c1, c2⟩
            · rw [if_pos rfl]
              constructor
              · simp [List.count_cons, c1]
              · simp [List.count_cons, c2, hqn, Ne.symm hqn]
          · simp only [pressLoop, hq, if_pos hsub, hmode, if_neg hmemT]
            obtain ⟨c1, c2⟩ := ih holds (setAdd toggles qn) name hrest
            constructor
            · simp [List.count_cons, c1, hqn, Ne.symm hqn]
            · simp [List.count_cons, c2]
      · simp only [pressLoop, hq, if_neg hsub]
        exact ih holds toggles name hrest

/-- Callback counts of a HOLD binding during the press loop: exactly one
activation when the chord is fully pressed and the binding was inactive,
otherwise none; never a deactivation. -/
lemma pressLoop_hold_counts (pressed : Finset PKey) :
    ∀ (l : List (String × HotkeyBinding)) (holds toggles : List String)
      (name : String) (b : HotkeyBinding) (req : Finset PKey),
      (name, b) ∈ l → (l.map Prod.fst).Nodup →
      b.mode = HotkeyMode.hold → parseKeys b.keys = Except.ok req →
      (∀ p ∈ l, exceptOk (parseKeys p.2.keys) = true) →
      ((pressLoop pressed l holds toggles).events.count
          (CbEvent.activate name) =
        (if req ⊆ pressed ∧ name ∉ holds then 1 else 0) ∧
       (pressLoop pressed l holds toggles).events.count
          (CbEvent.deactivate name) = 0) := by
  intro l
  induction l with
  | nil => intro _ _ _ _ _ h; cases h
  | cons q rest ih =>
    intro holds toggles name b req hmem hnodup hmode hreq hok
    obtain ⟨qn, qb⟩ := q
    rcases List.mem_cons.mp hmem with heq | hmem'
    · injection heq with h1 h2
      subst h1; subst h2
      have hrest : name ∉ rest.map Prod.fst :=
        (List.nodup_cons.mp
          (show (name :: rest.map Prod.fst).Nodup from hnodup)).1
      by_cases hsub : req ⊆ pressed
      · by_cases hmemH : name ∈ holds
        · simp only [pressLoop, hreq, if_pos hsub, hmode, if_pos hmemH]
          obtain ⟨c1, c2⟩ := pressLoop_counts_frame pressed rest holds
            toggles name hrest
          refine ⟨?_, c2⟩
          rw [c1, if_neg]
          rintro ⟨_, hc⟩
          exact hc hmemH
        · simp only [pressLoop, hreq, if_pos hsub, hmode, if_neg hmemH]
          obtain ⟨c1, c2⟩ := pressLoop_counts_frame pressed rest
            (setAdd holds name) toggles name hrest
          constructor
          · rw [if_pos ⟨hsub, hmemH⟩]
            simp [List.count_cons, c1]
          · simp [List.count_cons, c2]
      · simp only [pressLoop, hreq, if_neg hsub]
        obtain ⟨c1, c2⟩ := pressLoop_counts_frame pressed rest holds
          toggles name hrest
        refine ⟨?_, c2⟩
        rw [c1, if_neg]
        rintro ⟨hc, _⟩
        exact hsub hc
    · have hpair := List.nodup_cons.mp
        (show (qn :: rest.map Prod.fst).Nodup from hnodup)
      have hqn : qn ≠ name := by
        intro h
        subst h
        exact hpair.1 (List.mem_map.mpr ⟨(qn, b), hmem', rfl⟩)
      have hnodup' : (rest.map Prod.fst).Nodup := hpair.2
      have hok' : ∀ p ∈ rest, exceptOk (parseKeys p.2.keys) = true :=
        fun p hp => hok p (List.mem_cons_of_mem _ hp)
      have hqok := hok (qn, qb) (List.mem_cons_self _ _)
      cases hq : parseKeys qb.keys with
      | error e => rw [hq] at hqok; simp [exceptOk] at hqok
      | ok req' =>
        by_cases hsub : req' ⊆ pressed
        · cases hmode' : qb.mode with
          | hold =>
            by_cases hmemH : qn ∈ holds
            · simp only [pressLoop, hq, if_pos hsub, hmode', if_pos hmemH]
              exact ih holds toggles name b req hmem' hnodup' hmode hreq hok'
            · simp only [pressLoop, hq, if_pos hsub, hmode', if_neg hmemH]
              obtain ⟨c1, c2⟩ := ih (setAdd holds qn) toggles name b req
                hmem' hnodup' hmode hreq hok'
              have hmm : (name ∉ setAdd holds qn) = (name ∉ holds) := by
                rw [eq_iff_iff, not_iff_not, mem_setAdd]
                simp [Ne.symm hqn]
              simp only [hmm] at c1
              constructor
              · simp [List.count_cons, c1, hqn, Ne.symm hqn]
              · simp [List.count_cons, c2]
          | toggle =>
            by_cases hmemT : qn ∈ toggles
            · simp only [pressLoop, hq, if_pos hsub, hmode', if_pos hmemT]
              obtain ⟨c1, c2⟩ := ih holds (setDiscard toggles qn) name b req
                hmem' hnodup' hmode hreq hok'
              cases hd : qb.hasDeactivate
              · rw [if_neg Bool.false_ne_true]
                exact ⟨c1, c2⟩
              · rw [if_pos rfl]
                constructor
                · simp [List.count_cons, c1]
                · simp [List.count_cons, c2, hqn, Ne.symm hqn]
            · simp only [pressLoop, hq, if_pos hsub, hmode', if_neg hmemT]
              obtain ⟨c1, c2⟩ := ih holds (setAdd toggles qn) name b req
                hmem' hnodup' hmode hreq hok'
              constructor
              · simp [List.count_cons, c1, hqn, Ne.symm hqn]
              · simp [List.count_cons, c2]
        · simp only [pressLoop, hq, if_neg hsub]
          exact ih holds toggles name b req hmem' hnodup' hmode hreq hok'

/-- The press loop keeps the active-holds list duplicate-free. -/
lemma pressLoop_holds_nodup (pressed : Finset PKey) :
    ∀ (l : List (String × HotkeyBinding)) (holds toggles : List String),
      holds.Nodup → (pressLoop pressed l holds toggles).holds.Nodup := by
  intro l
  induction l with
  | nil => intro holds toggles h; exact h
  | cons q rest ih =>
    intro holds toggles h
    obtain ⟨qn, qb⟩ := q
    cases hq : parseKeys qb.keys with
    | error e => simp only [pressLoop, hq]; exact h
    | ok req =>
      by_cases hsub : req ⊆ pressed
      · cases hmode : qb.mode with
        | hold =>
          by_cases hmemH : qn ∈ holds
          · simp only [pressLoop, hq, if_pos hsub, hmode, if_pos hmemH]
            exact ih holds toggles h
          · simp only [pressLoop, hq, if_pos hsub, hmode, if_neg hmemH]
            exact ih _ toggles (setAdd_nodup holds qn h)
        | toggle =>
          by_cases hmemT : qn ∈ toggles
          · simp only [pressLoop, hq, if_pos hsub, hmode, if_pos hmemT]
            exact ih holds _ h
          · simp only [pressLoop, hq, if_pos hsub, hmode, if_neg hmemT]
            exact ih holds _ h
      · simp only [pressLoop, hq, if_neg hsub]
        exact ih holds toggles h

/-! ## Lemmas about dict lookup and the `_on_release` loop -/

lemma lookupBinding_mem (l : List (String × HotkeyBinding)) (name : String)
    (b : HotkeyBinding) (h : lookupBinding l name = some b) : (name, b) ∈ l := by
  unfold lookupBinding at h
  cases hf : l.find? (fun p => p.1 = name) with
  | none => rw [hf] at h; cases h
  | some p =>
    rw [hf] at h
    have hp0 := List.find?_some hf
    have hp1 : p.1 = name := by simpa using hp0
    have hp2 : p.2 = b := by
      injection h
    have hm := List.mem_of_find?_eq_some hf
    obtain ⟨p1, p2⟩ := p
    cases hp1
    cases hp2
    exact hm

lemma lookupBinding_eq_some (l : List (String × HotkeyBinding))
    (name : String) (b : HotkeyBinding) (hnodup : (l.map Prod.fst).Nodup)
    (hmem : (name, b) ∈ l) : lookupBinding l name = some b := by
  induction l with
  | nil => cases hmem
  | cons q rest ih =>
    obtain ⟨qn, qb⟩ := q
    have hpair := List.nodup_cons.mp
      (show (qn :: rest.map Prod.fst).Nodup from hnodup)
    rcases List.mem_cons.mp hmem with heq | hmem'
    · injection heq with h1 h2
      subst h1; subst h2
      simp [lookupBinding, List.find?]
    · have hqn : qn ≠ name := by
        intro h
        subst h
        exact hpair.1 (List.mem_map.mpr ⟨(qn, b), hmem', rfl⟩)
      have := ih hpair.2 hmem'
      unfold lookupBinding at this ⊢
      rw [List.find?_cons_of_neg _ (by simpa using hqn)]
      exact this

/-- The release loop never invokes an activation callback. -/
lemma releaseLoop_no_activate (pressed : Finset PKey)
    (bindings : List (String × HotkeyBinding)) :
    ∀ (snapshot holds : List String) (name : String),
      (releaseLoop pressed bindings snapshot holds).events.count
        (CbEvent.activate name) = 0 := by
  intro snapshot
  induction snapshot with
  | nil => intro holds name; rfl
  | cons q rest ih =>
    intro holds name
    cases hlk : lookupBinding bindings q with
    | none => simp only [releaseLoop, hlk]; exact ih _ name
    | some b =>
      cases hq : parseKeys b.keys with
      | error e => simp [releaseLoop, hlk, hq]
      | ok req =>
        by_cases hsub : req ⊆ pressed
        · simp only [releaseLoop, hlk, hq, if_pos hsub]
          exact ih holds name
        · simp only [releaseLoop, hlk, hq, if_neg hsub]
          cases hd : b.hasDeactivate
          · rw [if_neg Bool.false_ne_true]
            exact ih _ name
          · rw [if_pos rfl]
            simp [List.count_cons, ih _ name]

/-- A name that is not in the iterated snapshot keeps its active-holds
membership and receives no deactivation callback from the release loop. -/
lemma releaseLoop_frame (pressed : Finset PKey)
    (bindings : List (String × HotkeyBinding)) :
    ∀ (snapshot holds : List String) (name : String), name ∉ snapshot →
      ((name ∈ (releaseLoop pressed bindings snapshot holds).holds ↔
         name ∈ holds) ∧
       (releaseLoop pressed bindings snapshot holds).events.count
         (CbEvent.deactivate name) = 0) := by
  intro snapshot
  induction snapshot with
  | nil => intro holds name _; exact ⟨Iff.rfl, rfl⟩
  | cons q rest ih =>
    intro holds name hname
    have hqn : name ≠ q := by
      intro h; exact hname (by simp [h])
    have hrest : name ∉ rest := by
      intro h; exact hname (by simp [h])
    cases hlk : lookupBinding bindings q with
    | none =>
      simp only [releaseLoop, hlk]
      obtain ⟨m, c⟩ := ih (setDiscard holds q) name hrest
      refine ⟨?_, c⟩
      rw [m, mem_setDiscard]
      simp [hqn]
    | some b =>
      cases hq : parseKeys b.keys with
      | error e => simp [releaseLoop, hlk, hq]
      | ok req =>
        by_cases hsub : req ⊆ pressed
        · simp only [releaseLoop, hlk, hq, if_pos hsub]
          exact ih holds name hrest
        · simp only [releaseLoop, hlk, hq, if_neg hsub]
          obtain ⟨m, c⟩ := ih (setDiscard holds q) name hrest
          have hm : name ∈ (releaseLoop pressed bindings rest
              (setDiscard holds q)).holds ↔ name ∈ holds := by
            rw [m, mem_setDiscard]
            simp [hqn]
          cases hd : b.hasDeactivate
          · rw [if_neg Bool.false_ne_true]
            exact ⟨hm, c⟩
          · rw [if_pos rfl]
            refine ⟨hm, ?_⟩
            simp [List.count_cons, c, hqn, Ne.symm hqn]

/-- Active-holds membership and deactivation count of a registered HOLD
binding across the release loop: the name survives exactly when it was
active and (when iterated over) its chord is still fully pressed, and it is
deactivated exactly once when iterated over with the chord no longer fully
pressed. -/
lemma releaseLoop_target (pressed : Finset PKey)
    (bindings : List (String × HotkeyBinding)) :
    ∀ (snapshot holds : List String) (name : String) (b : HotkeyBinding)
      (req : Finset PKey),
      snapshot.Nodup →
      lookupBinding bindings name = some b →
      parseKeys b.keys = Except.ok req →
      b.hasDeactivate = true →
      (∀ p ∈ bindings, exceptOk (parseKeys p.2.keys) = true) →
      ((name ∈ (releaseLoop pressed bindings snapshot holds).holds ↔
         (name ∈ holds ∧ (name ∈ snapshot → req ⊆ pressed))) ∧
       ((releaseLoop pressed bindings snapshot holds).events.count
          (CbEvent.deactivate name) =
         if name ∈ snapshot ∧ ¬ req ⊆ pressed then 1 else 0)) := by
  intro snapshot
  induction snapshot with
  | nil =>
    intro holds name b req _ _ _ _ _
    constructor
    · simp [releaseLoop]
    · rw [releaseLoop, if_neg]
      · rfl
      · rintro ⟨h, _⟩
        cases h
  | cons q rest ih =>
    intro holds name b req hnodup hlook hreq hdeact hok
    have hpair := List.nodup_cons.mp hnodup
    by_cases hn : q = name
    · subst hn
      have hrest : q ∉ rest := hpair.1
      simp only [releaseLoop, hlook, hreq]
      by_cases hsub : req ⊆ pressed
      · rw [if_pos hsub]
        obtain ⟨m, c⟩ := releaseLoop_frame pressed bindings rest holds q
          hrest
        constructor
        · rw [m]
          simp [hsub]
        · rw [c, if_neg]
          rintro ⟨_, hc⟩
          exact hc hsub
      · rw [if_neg hsub]
        obtain ⟨m, c⟩ := releaseLoop_frame pressed bindings rest
          (setDiscard holds q) q hrest
        rw [hdeact, if_pos rfl]
        constructor
        · rw [m, mem_setDiscard]
          simp [hsub]
        · rw [if_pos ⟨by simp, hsub⟩]
          simp [List.count_cons, c]
    · have hnq : name ≠ q := fun h => hn h.symm
      have hmemiff : (name ∈ q :: rest) ↔ name ∈ rest := by
        simp [List.mem_cons, hnq]
      cases hlk : lookupBinding bindings q with
      | none =>
        simp only [releaseLoop, hlk]
        obtain ⟨m, c⟩ := ih (setDiscard holds q) name b req hpair.2 hlook
          hreq hdeact hok
        constructor
        · rw [m, mem_setDiscard]
          simp [hnq, hmemiff]
        · rw [c]
          simp [hmemiff]
      | some b' =>
        have hb'ok := hok (q, b') (lookupBinding_mem bindings q b' hlk)
        cases hq' : parseKeys b'.keys with
        | error e => rw [hq'] at hb'ok; simp [exceptOk] at hb'ok
        | ok req'' =>
          by_cases hsub' : req'' ⊆ pressed
          · simp only [releaseLoop, hlk, hq', if_pos hsub']
            obtain ⟨m, c⟩ := ih holds name b req hpair.2 hlook hreq hdeact hok
            constructor
            · rw [m]
              simp [hmemiff]
            · rw [c]
              simp [hmemiff]
          · simp only [releaseLoop, hlk, hq', if_neg hsub']
            obtain ⟨m, c⟩ := ih (setDiscard holds q) name b req hpair.2 hlook
              hreq hdeact hok
            have hm : _ ↔ _ := m
            cases hd' : b'.hasDeactivate
            · rw [if_neg Bool.false_ne_true]
              constructor
              · rw [m, mem_setDiscard]
                simp [hnq, hmemiff]
              · rw [c]
                simp [hmemiff]
            · rw [if_pos rfl]
              constructor
              · rw [m, mem_setDiscard]
                simp [hnq, hmemiff]
              · rw [List.count_cons, c]
                simp [hmemiff, hnq, Ne.symm hnq]

/-- The release loop keeps the active-holds list duplicate-free. -/
lemma releaseLoop_holds_nodup (pressed : Finset PKey)
    (bindings : List (String × HotkeyBinding)) :
    ∀ (snapshot holds : List String), holds.Nodup →
      (releaseLoop pressed bindings snapshot holds).holds.Nodup := by
  intro snapshot
  induction snapshot with
  | nil => intro holds h; exact h
  | cons q rest ih =>
    intro holds h
    cases hlk : lookupBinding bindings q with
    | none =>
      simp only [releaseLoop, hlk]
      exact ih _ (setDiscard_nodup holds q h)
    | some b =>
      cases hq : parseKeys b.keys with
      | error e => simp only [releaseLoop, hlk, hq]; exact h
      | ok req =>
        by_cases hsub : req ⊆ pressed
        · simp only [releaseLoop, hlk, hq, if_pos hsub]
          exact ih holds h
        · simp only [releaseLoop, hlk, hq, if_neg hsub]
          exact ih _ (setDiscard_nodup holds q h)

/-- Registering stores the binding itself in the dict. -/
lemma mem_updateAssoc (l : List (String × HotkeyBinding)) (name : String)
    (b : HotkeyBinding) : (name, b) ∈ updateAssoc l name b := by
  unfold updateAssoc
  split
  · rename_i h
    rw [List.any_eq_true] at h
    obtain ⟨p, hp, hpe⟩ := h
    rw [List.mem_map]
    refine ⟨p, hp, ?_⟩
    rw [if_pos (of_decide_eq_true hpe)]
  · simp

/-- If any binding in the list has an unparseable chord, the press loop
propagates an exception. -/
lemma pressLoop_error_of_bad (pressed : Finset PKey) :
    ∀ (l : List (String × HotkeyBinding)) (holds toggles : List String),
      (∃ p ∈ l, exceptOk (parseKeys p.2.keys) = false) →
      ((pressLoop pressed l holds toggles).error).isSome = true := by
  intro l
  induction l with
  | nil => rintro holds toggles ⟨p, hp, _⟩; cases hp
  | cons q rest ih =>
    rintro holds toggles ⟨p, hp, hbad⟩
    obtain ⟨qn, qb⟩ := q
    cases hq : parseKeys qb.keys with
    | error e => simp [pressLoop, hq]
    | ok req =>
      have hrest : ∃ p ∈ rest, exceptOk (parseKeys p.2.keys) = false := by
        rcases List.mem_cons.mp hp with rfl | h
        · rw [hq] at hbad; simp [exceptOk] at hbad
        · exact ⟨p, h, hbad⟩
      have hih : ∀ holds' toggles' : List String,
          ((pressLoop pressed rest holds' toggles').error).isSome = true :=
        fun holds' toggles' => ih holds' toggles' hrest
      simp only [pressLoop, hq]
      by_cases hsub : req ⊆ pressed
      · simp only [if_pos hsub]
        cases qb.mode with
        | hold =>
          by_cases hmem : qn ∈ holds
          · simp only [if_pos hmem]; exact hih _ _
          · simp only [if_neg hmem]; exact hih _ _
        | toggle =>
          by_cases hmem : qn ∈ toggles
          · simp only [if_pos hmem]; exact hih _ _
          · simp only [if_neg hmem]; exact hih _ _
      · simp only [if_neg hsub]; exact hih _ _

/-- One key event preserves the registered bindings and the HOLD invariant
(membership in the active holds equals chord-fully-pressed), and fires the
HOLD binding's callbacks exactly on the corresponding transitions. -/
lemma hold_step (s : ManagerState) (name : String) (b : HotkeyBinding)
    (req : Finset PKey) (e : KeyEvent)
    (hmem : (name, b) ∈ s.bindings)
    (hnodup : (s.bindings.map Prod.fst).Nodup)
    (hmode : b.mode = HotkeyMode.hold)
    (hdeact : b.hasDeactivate = true)
    (hreq : parseKeys b.keys = Except.ok req)
    (hok : ∀ p ∈ s.bindings, exceptOk (parseKeys p.2.keys) = true)
    (hnodupH : s.activeHolds.Nodup)
    (hinv : name ∈ s.activeHolds ↔ req ⊆ s.pressed) :
    (stepEvent s e).state.bindings = s.bindings ∧
    (stepEvent s e).state.activeHolds.Nodup ∧
    (name ∈ (stepEvent s e).state.activeHolds ↔
      req ⊆ (stepEvent s e).state.pressed) ∧
    ((stepEvent s e).events.count (CbEvent.activate name) =
      if req ⊆ (stepEvent s e).state.pressed ∧ ¬ req ⊆ s.pressed then 1
      else 0) ∧
    ((stepEvent s e).events.count (CbEvent.deactivate name) =
      if req ⊆ s.pressed ∧ ¬ req ⊆ (stepEvent s e).state.pressed then 1
      else 0) := by
  cases e with
  | press k =>
    have hmono : s.pressed ⊆ insert (normalizeKey k) s.pressed :=
      Finset.subset_insert _ _
    have hm := pressLoop_holds_mem (insert (normalizeKey k) s.pressed)
      s.bindings s.activeHolds s.activeToggles name b req hmem hnodup hmode
      hreq hok
    have hc := pressLoop_hold_counts (insert (normalizeKey k) s.pressed)
      s.bindings s.activeHolds s.activeToggles name b req hmem hnodup hmode
      hreq hok
    refine ⟨rfl, pressLoop_holds_nodup _ _ _ _ hnodupH, ?_, ?_, ?_⟩
    · show name ∈ (pressLoop (insert (normalizeKey k) s.pressed) s.bindings
          s.activeHolds s.activeToggles).holds ↔
        req ⊆ insert (normalizeKey k) s.pressed
      rw [hm]
      constructor
      · rintro (h | h)
        · exact (hinv.mp h).trans hmono
        · exact h
      · intro h
        exact Or.inr h
    · show (pressLoop (insert (normalizeKey k) s.pressed) s.bindings
          s.activeHolds s.activeToggles).events.count
          (CbEvent.activate name) =
        if req ⊆ insert (normalizeKey k) s.pressed ∧ ¬ req ⊆ s.pressed
        then 1 else 0
      rw [hc.1]
      exact if_congr (and_congr_right fun _ => not_congr hinv) rfl rfl
    · show (pressLoop (insert (normalizeKey k) s.pressed) s.bindings
          s.activeHolds s.activeToggles).events.count
          (CbEvent.deactivate name) =
        if req ⊆ s.pressed ∧ ¬ req ⊆ insert (normalizeKey k) s.pressed
        then 1 else 0
      rw [hc.2, if_neg (fun h => h.2 (h.1.trans hmono))]
  | release k =>
    have hmono : s.pressed.erase (normalizeKey k) ⊆ s.pressed :=
      Finset.erase_subset _ _
    have hlook := lookupBinding_eq_some s.bindings name b hnodup hmem
    have ht := releaseLoop_target (s.pressed.erase (normalizeKey k))
      s.bindings s.activeHolds s.activeHolds name b req hnodupH hlook hreq
      hdeact hok
    refine ⟨rfl, releaseLoop_holds_nodup _ _ _ _ hnodupH, ?_, ?_, ?_⟩
    · show name ∈ (releaseLoop (s.pressed.erase (normalizeKey k)) s.bindings
          s.activeHolds s.activeHolds).holds ↔
        req ⊆ s.pressed.erase (normalizeKey k)
      rw [ht.1]
      constructor
      · rintro ⟨h1, hf⟩
        exact hf h1
      · intro h
        exact ⟨hinv.mpr (h.trans hmono), fun _ => h⟩
    · show (releaseLoop (s.pressed.erase (normalizeKey k)) s.bindings
          s.activeHolds s.activeHolds).events.count
          (CbEvent.activate name) =
        if req ⊆ s.pressed.erase (normalizeKey k) ∧ ¬ req ⊆ s.pressed
        then 1 else 0
      rw [releaseLoop_no_activate (s.pressed.erase (normalizeKey k))
        s.bindings s.activeHolds s.activeHolds name,
        if_neg (fun h => h.2 (h.1.trans hmono))]
    · show (releaseLoop (s.pressed.erase (normalizeKey k)) s.bindings
          s.activeHolds s.activeHolds).events.count
          (CbEvent.deactivate name) =
        if req ⊆ s.pressed ∧ ¬ req ⊆ s.pressed.erase (normalizeKey k)
        then 1 else 0
      rw [ht.2]
      exact if_congr (and_congr_left' hinv) rfl rfl

/-- The HOLD invariant and callback-count facts hold after any event
sequence from a well-formed state. -/
lemma hold_run (name : String) (b : HotkeyBinding) (req : Finset PKey)
    (hmode : b.mode = HotkeyMode.hold) (hdeact : b.hasDeactivate = true)
    (hreq : parseKeys b.keys = Except.ok req) :
    ∀ (es : List KeyEvent) (s : ManagerState),
      (name, b) ∈ s.bindings →
      (s.bindings.map Prod.fst).Nodup →
      (∀ p ∈ s.bindings, exceptOk (parseKeys p.2.keys) = true) →
      s.activeHolds.Nodup →
      (name ∈ s.activeHolds ↔ req ⊆ s.pressed) →
      ((name ∈ (runEvents s es).activeHolds ↔
          req ⊆ (runEvents s es).pressed) ∧
        ∀ e : KeyEvent,
          ((stepEvent (runEvents s es) e).events.count
              (CbEvent.activate name) =
            if req ⊆ (stepEvent (runEvents s es) e).state.pressed ∧
              ¬ req ⊆ (runEvents s es).pressed then 1 else 0) ∧
          ((stepEvent (runEvents s es) e).events.count
              (CbEvent.deactivate name) =
            if req ⊆ (runEvents s es).pressed ∧
              ¬ req ⊆ (stepEvent (runEvents s es) e).state.pressed then 1
            else 0)) := by
  intro es
  induction es with
  | nil =>
    intro s hmem hnodup hok hnodupH hinv
    refine ⟨hinv, fun e => ?_⟩
    have hs := hold_step s name b req e hmem hnodup hmode hdeact hreq hok
      hnodupH hinv
    exact ⟨hs.2.2.2.1, hs.2.2.2.2⟩
  | cons e' es' ih =>
    intro s hmem hnodup hok hnodupH hinv
    have hs := hold_step s name b req e' hmem hnodup hmode hdeact hreq hok
      hnodupH hinv
    have hmem' : (name, b) ∈ (stepEvent s e').state.bindings := by
      rw [hs.1]; exact hmem
    have hnodup' : ((stepEvent s e').state.bindings.map Prod.fst).Nodup := by
      rw [hs.1]; exact hnodup
    have hok' : ∀ p ∈ (stepEvent s e').state.bindings,
        exceptOk (parseKeys p.2.keys) = true := by
      rw [hs.1]; exact hok
    exact ih (stepEvent s e').state hmem' hnodup' hok' hs.2.1 hs.2.2.1

/-! ## Claim theorems -/

/-- A binding whose chord string contains the unknown key name `foo`. -/
def badBinding : HotkeyBinding :=
  { keys := "foo", mode := HotkeyMode.hold, hasDeactivate := false }

/-- C1 counterexample: registering a binding with the unknown key name
`foo` raises nothing, and the very next key-press event raises the chord
parse error inside `_on_press` — at runtime, not at registration time. -/
theorem parse_error_counterexample :
    (onPress (register initialManager "bad" badBinding)
        (PKey.char 'x')).error = some "Unknown key: foo" := by decide

/-- C1 (amended): `register` performs no chord parsing and never raises for
a malformed chord — it stores the binding unchecked — and the
`ValueError` from chord parsing is instead raised at runtime inside
`_on_press` on the next key-down event processed with the malformed binding
registered. -/
theorem parse_error_at_runtime (s : ManagerState) (name : String)
    (b : HotkeyBinding) (e : String) (k : PKey)
    (hbad : parseKeys b.keys = Except.error e) :
    (name, b) ∈ (register s name b).bindings ∧
    ((onPress (register s name b) k).error).isSome = true := by
  refine ⟨mem_updateAssoc s.bindings name b, ?_⟩
  exact pressLoop_error_of_bad _ _ _ _
    ⟨(name, b), mem_updateAssoc s.bindings name b, by simp [hbad, exceptOk]⟩

/-- C1 witness: the malformed `foo` binding is stored by `register` and
makes the next `_on_press` raise. -/
theorem parse_error_at_runtime_witness :
    ("bad", badBinding) ∈ (register initialManager "bad" badBinding).bindings ∧
    ((onPress (register initialManager "bad" badBinding)
        (PKey.char 'x')).error).isSome = true :=
  parse_error_at_runtime initialManager "bad" badBinding "Unknown key: foo"
    (PKey.char 'x') (by decide)

/-- A TOGGLE binding on the single-key chord `t`. -/
def togBinding : HotkeyBinding :=
  { keys := "t", mode := HotkeyMode.toggle, hasDeactivate := false }

/-- A manager with only `togBinding` registered and a running listener. -/
def togglePressState : ManagerState :=
  { bindings := [("tog", togBinding)]
    pressed := ∅
    activeHolds := []
    activeToggles := []
    listening := true }

/-- C2 counterexample: with toggle binding `t` registered, pressing `t`
activates the toggle, and a second key-down of `t` (the chord already fully
pressed, e.g. key auto-repeat) flips it again — membership changes on a
key-down event while the chord was already fully pressed, which the claim
forbids. -/
theorem toggle_repressed_counterexample :
    "tog" ∈ (onPress togglePressState (PKey.char 't')).state.activeToggles ∧
    "tog" ∉ (onPress (onPress togglePressState (PKey.char 't')).state
        (PKey.char 't')).state.activeToggles := by decide

/-- C2 (amended): a TOGGLE binding's membership flips on every key-down
event processed while its chord is a subset of the pressed set after the
new key is added — level-triggered per press event, also when the chord was
already fully pressed before the event — and key-up events never change the
toggle set. -/
theorem toggle_flip_on_press (s : ManagerState) (k : PKey) (name : String)
    (b : HotkeyBinding) (req : Finset PKey)
    (hmem : (name, b) ∈ s.bindings)
    (hnodup : (s.bindings.map Prod.fst).Nodup)
    (hmode : b.mode = HotkeyMode.toggle)
    (hreq : parseKeys b.keys = Except.ok req)
    (hok : ∀ p ∈ s.bindings, exceptOk (parseKeys p.2.keys) = true) :
    (name ∈ (onPress s k).state.activeToggles ↔
      (if req ⊆ insert (normalizeKey k) s.pressed then
        name ∉ s.activeToggles
      else name ∈ s.activeToggles)) ∧
    (onRelease s k).state.activeToggles = s.activeToggles := by
  constructor
  · exact pressLoop_toggles_mem (insert (normalizeKey k) s.pressed)
      s.bindings s.activeHolds s.activeToggles name b req hmem hnodup hmode
      hreq hok
  · rfl

/-- C2 witness: the flip rule and release no-op at the concrete toggle
binding `t`. -/
theorem toggle_flip_on_press_witness :
    ("tog" ∈ (onPress togglePressState (PKey.char 't')).state.activeToggles ↔
      (if {PKey.char 't'} ⊆
          insert (normalizeKey (PKey.char 't')) togglePressState.pressed then
        "tog" ∉ togglePressState.activeToggles
      else "tog" ∈ togglePressState.activeToggles)) ∧
    (onRelease togglePressState (PKey.char 't')).state.activeToggles =
      togglePressState.activeToggles :=
  toggle_flip_on_press togglePressState (PKey.char 't') "tog" togBinding
    {PKey.char 't'} (by decide) (by decide) rfl (by decide) (by decide)

/-- The push-to-talk HOLD binding of the C3 scenario. -/
def pttBinding : HotkeyBinding :=
  { keys := "ctrl+shift+a", mode := HotkeyMode.hold, hasDeactivate := true }

/-- The key set of the chord `ctrl+shift+a`. -/
def pttReq : Finset PKey :=
  {PKey.ctrl_l, PKey.shift, PKey.char 'a'}

/-- A manager with only the push-to-talk binding registered. -/
def holdDemoState : ManagerState :=
  { bindings := [("ptt", pttBinding)]
    pressed := ∅
    activeHolds := []
    activeToggles := []
    listening := true }

/-- Pressing ctrl, then shift (the left physical shift key). -/
def holdDemoEvents : List KeyEvent :=
  [KeyEvent.press PKey.ctrl_l, KeyEvent.press PKey.shift_l]

/-- C3: for every sequence of key events, a registered HOLD binding is in
the active holds exactly when its required key set is a subset of the
pressed set, and each further event fires `on_activate` exactly once on a
false-to-true transition of that subset relation and `on_deactivate`
exactly once on a true-to-false transition (given well-formed bindings:
unique names, parseable chords, and a deactivation callback on the
binding). -/
theorem hold_binding_invariant (s : ManagerState) (name : String)
    (b : HotkeyBinding) (req : Finset PKey)
    (hmem : (name, b) ∈ s.bindings)
    (hnodup : (s.bindings.map Prod.fst).Nodup)
    (hmode : b.mode = HotkeyMode.hold)
    (hdeact : b.hasDeactivate = true)
    (hreq : parseKeys b.keys = Except.ok req)
    (hok : ∀ p ∈ s.bindings, exceptOk (parseKeys p.2.keys) = true)
    (hnodupH : s.activeHolds.Nodup)
    (hinv : name ∈ s.activeHolds ↔ req ⊆ s.pressed) :
    ∀ es : List KeyEvent,
      (name ∈ (runEvents s es).activeHolds ↔
        req ⊆ (runEvents s es).pressed) ∧
      ∀ e : KeyEvent,
        ((stepEvent (runEvents s es) e).events.count
            (CbEvent.activate name) =
          if req ⊆ (stepEvent (runEvents s es) e).state.pressed ∧
            ¬ req ⊆ (runEvents s es).pressed then 1 else 0) ∧
        ((stepEvent (runEvents s es) e).events.count
            (CbEvent.deactivate name) =
          if req ⊆ (runEvents s es).pressed ∧
            ¬ req ⊆ (stepEvent (runEvents s es) e).state.pressed then 1
          else 0) :=
  fun es => hold_run name b req hmode hdeact hreq es s hmem hnodup hok
    hnodupH hinv

/-- C3 witness: after pressing ctrl and shift the push-to-talk binding is
still inactive, and the press of `a` is exactly the claimed activation
edge. -/
theorem hold_binding_invariant_witness :
    (("ptt" ∈ (runEvents holdDemoState holdDemoEvents).activeHolds ↔
        pttReq ⊆ (runEvents holdDemoState holdDemoEvents).pressed)) ∧
    ((stepEvent (runEvents holdDemoState holdDemoEvents)
        (KeyEvent.press (PKey.char 'a'))).events.count
        (CbEvent.activate "ptt") =
      if pttReq ⊆ (stepEvent (runEvents holdDemoState holdDemoEvents)
            (KeyEvent.press (PKey.char 'a'))).state.pressed ∧
          ¬ pttReq ⊆ (runEvents holdDemoState holdDemoEvents).pressed
      then 1 else 0) ∧
    ((stepEvent (runEvents holdDemoState holdDemoEvents)
        (KeyEvent.press (PKey.char 'a'))).events.count
        (CbEvent.deactivate "ptt") =
      if pttReq ⊆ (runEvents holdDemoState holdDemoEvents).pressed ∧
          ¬ pttReq ⊆ (stepEvent (runEvents holdDemoState holdDemoEvents)
            (KeyEvent.press (PKey.char 'a'))).state.pressed
      then 1 else 0) :=
  have h := hold_binding_invariant holdDemoState "ptt" pttBinding pttReq
    (by decide) (by decide) rfl rfl (by decide) (by decide) (by decide)
    (by decide) holdDemoEvents
  ⟨h.1, (h.2 (KeyEvent.press (PKey.char 'a'))).1,
    (h.2 (KeyEvent.press (PKey.char 'a'))).2⟩

/-- C5 counterexample: the claim includes cmd among the modifiers whose
left/right physical variants are collapsed, but `_normalize_key` has no cmd
branch: the right cmd key keeps an identity distinct from the canonical
cmd/left-cmd identity. -/
theorem normalizeKey_cmd_counterexample :
    normalizeKey PKey.cmd_r ≠ normalizeKey PKey.cmd := by decide

/-- C5 (amended): `_normalize_key` collapses the left/right variants of
ctrl, alt and shift to one canonical identity each, but performs no
normalization for cmd: the right cmd variant stays distinct from cmd. -/
theorem normalizeKey_modifier_variants :
    normalizeKey PKey.ctrl_r = normalizeKey PKey.ctrl_l ∧
    normalizeKey PKey.alt_r = normalizeKey PKey.alt_l ∧
    normalizeKey PKey.shift_l = normalizeKey PKey.shift ∧
    normalizeKey PKey.shift_r = normalizeKey PKey.shift ∧
    normalizeKey PKey.cmd = PKey.cmd ∧
    normalizeKey PKey.cmd_r = PKey.cmd_r := by decide

/-- C9: `EnergyVAD.is_speech` returns `False` on a zero-length frame for
every threshold, short-circuiting before the mean of the empty array would
be computed. -/
theorem isSpeech_empty_frame (threshold : ℚ) :
    isSpeech threshold [] = false := rfl

/-- C4 counterexample: stopping the manager while a TOGGLE binding is
active leaves the active-toggle set nonempty, against the claim that both
active sets are emptied. -/
theorem managerStop_counterexample :
    (managerStop
        { bindings := [("tog",
            { keys := "t", mode := HotkeyMode.toggle, hasDeactivate := false })]
          pressed := ∅
          activeHolds := []
          activeToggles := ["tog"]
          listening := true }).1.activeToggles ≠ [] := by decide

/-- C4 (amended): with a running listener, `HotkeyManager.stop` clears the
pressed-key set and the active holds and invokes no deactivation callback,
but it leaves the active toggles untouched. -/
theorem managerStop_clears (s : ManagerState) (h : s.listening = true) :
    (managerStop s).1.pressed = ∅ ∧
    (managerStop s).1.activeHolds = [] ∧
    (managerStop s).1.activeToggles = s.activeToggles ∧
    (managerStop s).2 = [] := by
  simp [managerStop, h]

/-- C4 witness: the amended stop behaviour at a concrete active state. -/
theorem managerStop_clears_witness :
    (managerStop
        { bindings := []
          pressed := {PKey.char 't'}
          activeHolds := ["ptt"]
          activeToggles := ["tog"]
          listening := true }).1.pressed = ∅ ∧
    (managerStop
        { bindings := []
          pressed := {PKey.char 't'}
          activeHolds := ["ptt"]
          activeToggles := ["tog"]
          listening := true }).1.activeHolds = [] ∧
    (managerStop
        { bindings := []
          pressed := {PKey.char 't'}
          activeHolds := ["ptt"]
          activeToggles := ["tog"]
          listening := true }).1.activeToggles =
      ({ bindings := []
         pressed := {PKey.char 't'}
         activeHolds := ["ptt"]
         activeToggles := ["tog"]
         listening := true } : ManagerState).activeToggles ∧
    (managerStop
        { bindings := []
          pressed := {PKey.char 't'}
          activeHolds := ["ptt"]
          activeToggles := ["tog"]
          listening := true }).2 = [] :=
  managerStop_clears _ rfl

/-- C6: `AudioRecorder.stop` without a recording in progress returns the
empty sample array and leaves the recorder untouched, and `_AudioPlayer.stop`
with no live playback thread ends with the player IDLE and still without a
thread; neither has a raising branch. -/
theorem stop_without_start_safe (r : RecorderState) (p : PlayerState)
    (hr : r.recording = false) (_hp : p.threadAlive = false) :
    recorderStop r = (r, []) ∧
    (playerStop p).state = PlaybackState.idle ∧
    (playerStop p).threadAlive = false := by
  refine ⟨?_, rfl, rfl⟩
  simp [recorderStop, hr]

/-- C6 witness: stop on the freshly constructed recorder and player. -/
theorem stop_without_start_safe_witness :
    recorderStop initialRecorder = (initialRecorder, []) ∧
    (playerStop initialPlayer).state = PlaybackState.idle ∧
    (playerStop initialPlayer).threadAlive = false :=
  stop_without_start_safe initialRecorder initialPlayer rfl rfl

/-- C10: when opening the input device fails, `AudioRecorder.start` raises
only after resetting `_recording` to `False`, so the failed start leaves a
not-recording state on which `stop` returns the empty array. -/
theorem recorderStart_failure_atomic (s : RecorderState)
    (h : s.recording = false) :
    ((recorderStart s false).2).isSome = true ∧
    (recorderStart s false).1.recording = false ∧
    recorderStop (recorderStart s false).1 = ((recorderStart s false).1, []) := by
  refine ⟨?_, ?_, ?_⟩ <;> simp [recorderStart, recorderStop, h]

/-- The fallback loop fails exactly when every backend in the list fails,
for any remembered last error. -/
lemma synthLoop_error_iff (text : String) (l : List TTSBackend)
    (lastErr : Option String) :
    exceptOk (synthLoop text l lastErr) = false ↔
      ∀ e ∈ l, exceptOk (e.synth text) = false := by
  induction l generalizing lastErr with
  | nil => simp [synthLoop, exceptOk]
  | cons e rest ih =>
    cases he : e.synth text with
    | ok pcm =>
      simp only [synthLoop, he]
      constructor
      · intro h
        simp [exceptOk] at h
      · intro h
        have hh := h e (by simp)
        rw [he] at hh
        simp [exceptOk] at hh
    | error exc =>
      simp only [synthLoop, he]
      rw [ih (some exc)]
      constructor
      · intro h f hf
        rcases List.mem_cons.mp hf with rfl | hf'
        · rw [he]; rfl
        · exact h f hf'
      · intro h f hf
        exact h f (List.mem_cons_of_mem _ hf)

/-- When every backend before `e` fails and `e` succeeds, the fallback loop
returns `e`'s PCM paired with `e`'s sample rate. -/
lemma synthLoop_first_success (text : String) (pre : List TTSBackend)
    (e : TTSBackend) (rest : List TTSBackend) (lastErr : Option String)
    (hpre : ∀ p ∈ pre, exceptOk (p.synth text) = false)
    (pcm : List ℤ) (he : e.synth text = Except.ok pcm) :
    synthLoop text (pre ++ e :: rest) lastErr =
      Except.ok (pcm, e.sampleRate) := by
  induction pre generalizing lastErr with
  | nil => simp [synthLoop, he]
  | cons p pre ih =>
    have hp : exceptOk (p.synth text) = false := hpre p (by simp)
    cases hps : p.synth text with
    | ok _ => rw [hps] at hp; simp [exceptOk] at hp
    | error exc =>
      simp only [List.cons_append, synthLoop, hps]
      exact ih (some exc) (fun q hq => hpre q (List.mem_cons_of_mem _ hq))

/-- C8: `TTSManager._synthesize` orders the two backends with the preferred
one first (Edge first exactly when Edge was the last successfully selected
backend, otherwise Piper first), tries them in that order, raises the
all-backends-failed error exactly when every backend in the ordering
throws, and on the first success returns that backend's PCM paired with
that backend's native sample rate. -/
theorem tts_fallback (preferred : Option String) (piper edge : TTSBackend)
    (text : String) :
    (preferred = some "edge" →
      engineOrder preferred piper edge = [edge, piper]) ∧
    (preferred ≠ some "edge" →
      engineOrder preferred piper edge = [piper, edge]) ∧
    (exceptOk (ttsSynthesize preferred piper edge text) = false ↔
      ∀ e ∈ engineOrder preferred piper edge,
        exceptOk (e.synth text) = false) ∧
    (∀ pre e rest, engineOrder preferred piper edge = pre ++ e :: rest →
      (∀ p ∈ pre, exceptOk (p.synth text) = false) →
      ∀ pcm, e.synth text = Except.ok pcm →
        ttsSynthesize preferred piper edge text =
          Except.ok (pcm, e.sampleRate)) := by
  refine ⟨fun h => by simp [engineOrder, h],
    fun h => by simp [engineOrder, h], ?_, ?_⟩
  · exact synthLoop_error_iff text _ none
  · intro pre e rest horder hpre pcm he
    unfold ttsSynthesize
    rw [horder]
    exact synthLoop_first_success text pre e rest none hpre pcm he

/-- A backend whose synthesis always throws. -/
def witFailingBackend : TTSBackend :=
  { synth := fun _ => Except.error "piper exe missing", sampleRate := 22050 }

/-- A backend whose synthesis always succeeds with a fixed PCM buffer. -/
def witWorkingBackend : TTSBackend :=
  { synth := fun _ => Except.ok [1, 2, 3], sampleRate := 24000 }

/-- C8 witness: with no preferred backend, a failing Piper and a working
Edge, synthesis falls back to Edge and returns its PCM at 24000 Hz. -/
theorem tts_fallback_witness :
    ttsSynthesize none witFailingBackend witWorkingBackend "hello" =
      Except.ok ([1, 2, 3], 24000) :=
  (tts_fallback none witFailingBackend witWorkingBackend "hello").2.2.2
    [witFailingBackend] witWorkingBackend [] rfl
    (fun p hp => by
      simp only [List.mem_singleton] at hp
      subst hp
      rfl)
    [1, 2, 3] rfl

/-- A one-sample zero frame is below the default energy threshold. -/
lemma isSpeech_default_silentFrame :
    isSpeech ENERGY_THRESHOLD_DEFAULT [0] = false := by
  norm_num [isSpeech, meanSquare, sqrtGt, ENERGY_THRESHOLD_DEFAULT]

/-- A one-sample full-scale frame is above the default energy threshold. -/
lemma isSpeech_default_loudFrame :
    isSpeech ENERGY_THRESHOLD_DEFAULT [1] = true := by
  norm_num [isSpeech, meanSquare, sqrtGt, ENERGY_THRESHOLD_DEFAULT]

/-- On a stream with no speech frame at all, the listen loop never moves
off its initial state. -/
lemma listenRun_all_silent (threshold : ℚ) (limit : ℕ)
    (stream : ℕ → List ℚ)
    (hs : ∀ n, isSpeech threshold (stream n) = false) :
    ∀ n, listenRun threshold limit stream n = listenInit := by
  intro n
  induction n with
  | zero => rfl
  | succ n ih =>
    show listenStep threshold limit (listenRun threshold limit stream n)
      (stream n) = listenInit
    rw [ih]
    simp [listenStep, listenInit, hs n]

/-- A stopped listen loop stays stopped on further frames. -/
lemma listenStep_stopped (threshold : ℚ) (limit : ℕ) (st : ListenState)
    (frame : List ℚ) (h : st.stopped = true) :
    listenStep threshold limit st frame = st := by
  simp [listenStep, h]

/-- C7 counterexample: with the default threshold and the default
silence-chunk limit, the listen loop never stops on an input that contains
no speech — there is no bounded no-speech timeout. -/
theorem listen_no_speech_no_timeout_counterexample :
    ¬ listenTerminates ENERGY_THRESHOLD_DEFAULT
        (silenceChunks SILENCE_LIMIT_S SAMPLE_RATE) (fun _ => [0]) := by
  rintro ⟨n, hn⟩
  rw [listenRun_all_silent _ _ _ (fun _ => isSpeech_default_silentFrame) n]
    at hn
  exact Bool.false_ne_true hn

/-- C7 (amended): the listen loop accumulates frames once speech is
detected, counts consecutive silent frames after the first speech frame and
stops once their number reaches the configured limit (by default
`int(1.5 * 16000 / 480) = 50` frames, i.e. 1.5 s); but when no speech is
ever detected the loop never stops by itself — it runs until
`stop_listening()` clears the listening flag externally. -/
theorem listen_loop_termination (threshold : ℚ) (limit : ℕ)
    (stream : ℕ → List ℚ) :
    (0 < limit →
      (∃ k, isSpeech threshold (stream k) = true ∧
        ∀ j, k < j → isSpeech threshold (stream j) = false) →
      listenTerminates threshold limit stream) ∧
    ((∀ n, isSpeech threshold (stream n) = false) →
      ¬ listenTerminates threshold limit stream) ∧
    silenceChunks SILENCE_LIMIT_S SAMPLE_RATE = 50 := by
  refine ⟨?_, ?_, ?_⟩
  · rintro hlim ⟨k, hk, hsil⟩
    have key : ∀ m : ℕ,
        (listenRun threshold limit stream (k + 1 + m)).stopped = true ∨
        ((listenRun threshold limit stream (k + 1 + m)).speechStarted = true ∧
          (listenRun threshold limit stream (k + 1 + m)).silentCount = m ∧
          m < limit) := by
      intro m
      induction m with
      | zero =>
        have hstep : listenRun threshold limit stream (k + 1 + 0) =
            listenStep threshold limit (listenRun threshold limit stream k)
              (stream k) := rfl
        cases hstop : (listenRun threshold limit stream k).stopped with
        | true =>
          left
          rw [hstep, listenStep_stopped _ _ _ _ hstop]
          exact hstop
        | false =>
          right
          rw [hstep]
          simp [listenStep, hstop, hk, hlim]
      | succ m ih =>
        have hs : isSpeech threshold (stream (k + 1 + m)) = false :=
          hsil (k + 1 + m) (by omega)
        have hstep : listenRun threshold limit stream (k + 1 + (m + 1)) =
            listenStep threshold limit
              (listenRun threshold limit stream (k + 1 + m))
              (stream (k + 1 + m)) := by
          have : k + 1 + (m + 1) = (k + 1 + m) + 1 := by omega
          rw [this]
          rfl
        rcases ih with hstop | ⟨hsp, hsc, hm⟩
        · left
          rw [hstep, listenStep_stopped _ _ _ _ hstop]
          exact hstop
        · cases hstop : (listenRun threshold limit stream (k + 1 + m)).stopped
            with
          | true => left; rw [hstep, listenStep_stopped _ _ _ _ hstop]; exact hstop
          | false =>
            by_cases hlim2 : limit ≤ m + 1
            · left
              rw [hstep]
              simp [listenStep, hstop, hs, hsp, hsc, hlim2]
            · right
              rw [hstep]
              simp [listenStep, hstop, hs, hsp, hsc]
              omega
    rcases key limit with hstop | ⟨_, _, hcon⟩
    · exact ⟨k + 1 + limit, hstop⟩
    · omega
  · intro hs
    rintro ⟨n, hn⟩
    rw [listenRun_all_silent _ _ _ hs n] at hn
    exact Bool.false_ne_true hn
  · norm_num [silenceChunks, SILENCE_LIMIT_S, SAMPLE_RATE, VAD_FRAME_SAMPLES,
      VAD_FRAME_MS]
    rfl

/-- Demo stream for the listen-loop witness: one loud frame, then silence. -/
def witListenStream : ℕ → List ℚ :=
  fun n => if n = 0 then [1] else [0]

/-- C7 witness: the loop stops on a stream with one speech frame followed
by silence, and never stops on the all-silent stream. -/
theorem listen_loop_termination_witness :
    listenTerminates ENERGY_THRESHOLD_DEFAULT 50 witListenStream ∧
    ¬ listenTerminates ENERGY_THRESHOLD_DEFAULT 50 (fun _ => [0]) :=
  ⟨(listen_loop_termination ENERGY_THRESHOLD_DEFAULT 50 witListenStream).1
      (by decide)
      ⟨0, by simp [witListenStream, isSpeech_default_loudFrame],
        fun j hj => by
          have hne : j ≠ 0 := by omega
          simp [witListenStream, hne, isSpeech_default_silentFrame]⟩,
    (listen_loop_termination ENERGY_THRESHOLD_DEFAULT 50 (fun _ => [0])).2.1
      (fun _ => isSpeech_default_silentFrame)⟩

/-- C10 witness: a failed first start on a fresh recorder. -/
theorem recorderStart_failure_atomic_witness :
    ((recorderStart initialRecorder false).2).isSome = true ∧
    (recorderStart initialRecorder false).1.recording = false ∧
    recorderStop (recorderStart initialRecorder false).1 =
      ((recorderStart initialRecorder false).1, []) :=
  recorderStart_failure_atomic initialRecorder rfl

end OrionVoice
